import Mathlib

/-!
Shallow embedding of `pkg/neobench/workload.go` (package `neobench`):
the weighted script selector (`NewScripts`, `Scripts.Choose`), the command
interpreter (`Script.Eval` and the `Query`/`Set`/`Sleep` commands), and the
per-client execution model (`Workload.NewClient`, `ClientWorkload.Next`).

Modelling conventions:
* Go `interface{}` values flowing through variables are `GoValue`
  (integer / string / boolean scalars, per the external expression contract).
* Go maps (`map[string]interface{}`) are association lists (`VarMap`); a map
  *object* (mutable, shared by reference) is a cell in an explicit `Heap`,
  addressed by a `MapRef`.  Mutation of a map through a pointer becomes
  functional update of the heap cell; Go's runtime panics (out-of-bounds
  indexing, `rand.Intn` with a non-positive bound) become `Option.none`.
* `*rand.Rand` is `Rand`: an abstract stream of non-negative values plus a
  cursor; drawing advances the cursor.  The concrete PRNG is irrelevant to
  the properties proved here, only the state threading is.
* Errors are their Go message strings.
* The expression language is external to this file's source; per the spec's
  contract (`Eval(context) -> (value, error)`, a pure function of the
  context) an `Expression` is a function from the variable scope's contents
  to `Except String GoValue`.
-/

/-- A scalar value of the embedded `interface{}` universe (per the spec's
external-interface contract: integer, string, boolean). -/
inductive GoValue where
  | int (n : Int)
  | str (s : String)
  | bool (b : Bool)
  deriving DecidableEq, Repr

/-- Go `fmt` `%v` rendering of a value, used by `SleepCommand`'s error. -/
def formatV : GoValue → String
  | .int n => toString n
  | .str s => s
  | .bool b => if b then "true" else "false"

/-- Contents of a `map[string]interface{}`. -/
abbrev VarMap := List (String × GoValue)

/-- Go map assignment `m[k] = v`: replace the binding for `k` if present,
otherwise add one. -/
def mapSet : VarMap → String → GoValue → VarMap
  | [], k, v => [(k, v)]
  | p :: rest, k, v => if p.1 = k then (k, v) :: rest else p :: mapSet rest k v

/-- A reference to a map object (Go maps are reference types). -/
abbrev MapRef := Nat

/-- The heap of map objects live in the program. -/
structure Heap where
  maps : List VarMap
  deriving Repr

/-- Dereference a map reference. -/
def Heap.get (h : Heap) (r : MapRef) : VarMap := h.maps.getD r []

/-- Overwrite the map object behind a reference. -/
def Heap.setRef (h : Heap) (r : MapRef) (m : VarMap) : Heap := ⟨h.maps.set r m⟩

/-- `make(map[...])` (+ population): allocate a fresh map object, returning
the grown heap and the fresh reference. -/
def Heap.alloc (h : Heap) (m : VarMap) : Heap × MapRef :=
  (⟨h.maps ++ [m]⟩, h.maps.length)

/-- A `*rand.Rand`: an abstract stream of non-negative draws plus a cursor.
Each call to a drawing method consumes one stream position. -/
structure GoRand where
  seq : Nat → Nat
  pos : Nat

/-- `rand.Intn(n)`: a draw in `[0, n)` for `n > 0` (Go panics on `n <= 0`;
callers below surface that case as `none` themselves). -/
def GoRand.intn (r : GoRand) (n : Nat) : Nat × GoRand :=
  (r.seq r.pos % n, ⟨r.seq, r.pos + 1⟩)

/-- `rand.Int63()`: a non-negative 63-bit draw. -/
def GoRand.int63 (r : GoRand) : Int × GoRand :=
  (((r.seq r.pos % 2 ^ 63 : Nat) : Int), ⟨r.seq, r.pos + 1⟩)

/-- `rand.New(rand.NewSource(seed))`: a fresh stream with its own cursor.
The concrete generator is abstracted; no property here depends on the
values it produces. -/
def newSource (seed : Int) : GoRand := ⟨fun k => seed.natAbs + k, 0⟩

/-- The result of evaluating an expression of the external expression
language against the current variable scope: `Eval(context) -> (value, error)`. -/
abbrev Expression := VarMap → Except String GoValue

/-- `Command`: the closed variant set `{Query, Set, Sleep}` of
`QueryCommand`, `SetCommand`, `SleepCommand` (the spec's tagged union).
`sleep`'s `unit` is the `time.Duration` multiplier. -/
inductive Command where
  | query (queryString : String)
  | set (varName : String) (expression : Expression)
  | sleep (duration : Expression) (unit : Int)

/-- `Script`: readonly flag, `uint` weight (a natural number), commands. -/
structure Script where
  Readonly : Bool
  Weight : Nat
  Commands : List Command

/-- The zero `Script`, standing in for Go's zero value at (unreachable)
out-of-bounds indexing sites. -/
def defaultScript : Script := ⟨false, 0, []⟩

/-- `Scripts`: the weighted selector. `WeightedLookup` holds `int` cumulative
weights, `TotalWeight` their sum. -/
structure Scripts where
  Scripts : List Script
  WeightedLookup : List Int
  TotalWeight : Int

/-- Alias for the selector type, usable where the name `Scripts` would
resolve to the `Scripts.Scripts` field projection instead. -/
abbrev ScriptsT := Scripts

/-- The loop body of `NewScripts`: starting from `cumulativeWeight = cum`,
produce the lookup-table suffix and the final cumulative weight. -/
def buildLookup : List Script → Int → List Int × Int
  | [], cum => ([], cum)
  | s :: rest, cum =>
    let cum' := cum + (s.Weight : Int)
    let (tbl, total) := buildLookup rest cum'
    (cum' :: tbl, total)

/-- `NewScripts`: build the cumulative-weight lookup table and total. -/
def NewScripts (scripts : List Script) : Scripts :=
  let bt := buildLookup scripts 0
  { Scripts := scripts, WeightedLookup := bt.1, TotalWeight := bt.2 }

/-- The loop of Go's `sort.Search` on the half-open interval `[i, j)`, with
explicit fuel (one unit per halving step; `j - i` steps always suffice).
`h := (i+j)/2`; if `f h` fails, continue in `[h+1, j)`, else in `[i, h)`. -/
def sortSearchGo (f : Nat → Bool) : Nat → Nat → Nat → Nat
  | 0, i, _ => i
  | fuel + 1, i, j =>
    if i < j then
      let m := (i + j) / 2
      if f m then sortSearchGo f fuel i m else sortSearchGo f fuel (m + 1) j
    else i

/-- Go's `sort.Search(n, f)`: the smallest `i` in `[0, n]` with `f i`
(assuming `f` monotone), by binary search. -/
def sortSearch (n : Nat) (f : Nat → Bool) : Nat := sortSearchGo f n 0 n

/-- Go's `sort.SearchInts(a, x)`: `sort.Search` with `f i := a[i] >= x`. -/
def searchInts (a : List Int) (x : Int) : Nat :=
  sortSearch a.length (fun i => decide (x ≤ a.getD i 0))

/-- The index computed by `Choose`'s step 2 for a drawn `point`:
`sort.SearchInts(s.WeightedLookup, point)`. -/
def chooseIndex (s : Scripts) (point : Int) : Nat :=
  searchInts s.WeightedLookup point

/-- `Scripts.Choose`: short-circuit on a single script; otherwise draw
`point := r.Intn(TotalWeight) + 1` and binary-search the lookup table.
`none` models the panics: `Intn` with a non-positive bound, and
out-of-bounds indexing by the search result. -/
def Scripts.Choose (s : ScriptsT) (r : GoRand) : Option (Script × GoRand) :=
  if s.Scripts.length = 1 then
    some (s.Scripts.getD 0 defaultScript, r)
  else if s.TotalWeight ≤ 0 then
    none
  else
    let dr := r.intn s.TotalWeight.toNat
    let point : Int := (dr.1 : Int) + 1
    let index := chooseIndex s point
    if index < s.Scripts.length then
      some (s.Scripts.getD index defaultScript, dr.2)
    else
      none

/-- One parameterized statement: query template plus parameter snapshot. -/
structure Statement where
  Query : String
  Params : VarMap
  deriving DecidableEq, Repr

/-- `UnitOfWork`: readonly flag plus accumulated statements. -/
structure UnitOfWork where
  Readonly : Bool
  Statements : List Statement
  deriving DecidableEq, Repr

/-- `ScriptContext`: diagnostic sink (an opaque tag), the variable-scope map
reference, and the client's randomness stream. -/
structure ScriptContext where
  Stderr : Nat
  Vars : MapRef
  Rand : GoRand

/-- `Command.Execute(ctx, uow)`: returns the updated heap (the mutation of
`ctx.Vars`'s map object), the updated unit of work, and the error, if any.

* `query`: snapshot `ctx.Vars` into a fresh params map and append one
  `Statement`; never fails.
* `set`: evaluate the expression; on success bind the variable in the
  scope, on failure return the evaluator's error verbatim.
* `sleep`: evaluate the expression; a non-integer result is a type-mismatch
  error naming the value (`fmt.Errorf`); `time.Sleep` itself has no
  observable effect on the evaluation state. -/
def Command.Execute (c : Command) (ctx : ScriptContext) (h : Heap)
    (uow : UnitOfWork) : Heap × UnitOfWork × Option String :=
  match c with
  | .query q =>
    let params := h.get ctx.Vars
    (h, { uow with Statements :=
            uow.Statements ++ [{ Query := q, Params := params }] }, none)
  | .set varName expression =>
    match expression (h.get ctx.Vars) with
    | .error e => (h, uow, some e)
    | .ok v => (h.setRef ctx.Vars (mapSet (h.get ctx.Vars) varName v), uow, none)
  | .sleep duration _unit =>
    match duration (h.get ctx.Vars) with
    | .error e => (h, uow, some e)
    | .ok v =>
      match v with
      | .int _ => (h, uow, none)
      | _ => (h, uow,
          some ("\\sleep must be given an integer expression, got " ++ formatV v))

/-- The loop of `Script.Eval`: run the commands in order, stopping at the
first failure and returning the state accumulated so far. -/
def execList : List Command → ScriptContext → Heap → UnitOfWork →
    Heap × UnitOfWork × Option String
  | [], _, h, uow => (h, uow, none)
  | c :: rest, ctx, h, uow =>
    let r := c.Execute ctx h uow
    match r.2.2 with
    | some e => (r.1, r.2.1, some e)
    | none => execList rest ctx r.1 r.2.1

/-- `Script.Eval`: execute the commands against the context, starting from
a `UnitOfWork` pre-seeded with the script's readonly flag and no
statements. -/
def Script.Eval (s : Script) (ctx : ScriptContext) (h : Heap) :
    Heap × UnitOfWork × Option String :=
  execList s.Commands ctx h { Readonly := s.Readonly, Statements := [] }

/-- `Workload`: baseline variables (a map reference), the selector, and the
master randomness source. -/
structure Workload where
  Variables : MapRef
  Scripts : Scripts
  Rand : GoRand

/-- `ClientWorkload`: one per concurrent worker. -/
structure ClientWorkload where
  Readonly : Bool
  Variables : MapRef
  Scripts : Scripts
  Rand : GoRand
  Stderr : Nat

/-- The tag modelling the `os.Stderr` sink. -/
def osStderr : Nat := 0

/-- `Workload.NewClient`: a client holding the workload's `Variables`
reference, its `Scripts`, a fresh stream seeded with `s.Rand.Int63()`, and
`os.Stderr`.  Returns the client and the workload with its master source
advanced by the seeding draw. -/
def Workload.NewClient (s : Workload) : ClientWorkload × Workload :=
  let sd := s.Rand.int63
  ({ Readonly := false
     Variables := s.Variables
     Scripts := s.Scripts
     Rand := newSource sd.1
     Stderr := osStderr },
   { s with Rand := sd.2 })

/-- The outcome of one `ClientWorkload.Next` call: the Go return values
(`UnitOfWork`, `error`), plus the updated client and heap. -/
structure NextResult where
  uow : UnitOfWork
  err : Option String
  client : ClientWorkload
  heap : Heap

/-- `ClientWorkload.Next`: copy the baseline variables into a fresh map
object, choose a script with the client's stream, and evaluate it against a
context built from the fresh copy, the client's stream, and its sink.
`none` models a panic inside `Choose`. -/
def ClientWorkload.Next (s : ClientWorkload) (h : Heap) : Option NextResult :=
  let vars := h.get s.Variables
  let al := h.alloc vars
  match s.Scripts.Choose s.Rand with
  | none => none
  | some sr =>
    let ctx : ScriptContext := { Stderr := s.Stderr, Vars := al.2, Rand := sr.2 }
    let ev := sr.1.Eval ctx al.1
    some { uow := ev.2.1, err := ev.2.2
           client := { s with Rand := sr.2 }, heap := ev.1 }

/-! ### Correctness of the binary search (`sort.Search` / `sort.SearchInts`) -/

/-- Invariant-based correctness of the `sort.Search` loop: for a predicate
monotone below `n`, starting from a window `[i, j)` whose left part is all
false and whose right part (up to `n`) is all true, the loop lands on the
first true index (or the right end if there is none), provided the fuel
covers the window. -/
theorem sortSearchGo_spec (f : Nat → Bool) (n : Nat)
    (hmono : ∀ k l, k ≤ l → l < n → f k = true → f l = true) :
    ∀ fuel i j, j - i ≤ fuel → i ≤ j → j ≤ n →
      (∀ k, k < i → f k = false) →
      (∀ k, j ≤ k → k < n → f k = true) →
      i ≤ sortSearchGo f fuel i j ∧ sortSearchGo f fuel i j ≤ j ∧
      (∀ k, k < sortSearchGo f fuel i j → f k = false) ∧
      (∀ k, sortSearchGo f fuel i j ≤ k → k < n → f k = true) := by
  intro fuel
  induction fuel with
  | zero =>
    intro i j hfuel hij hjn hlo hhi
    have hji : i = j := by omega
    subst hji
    exact ⟨Nat.le_refl i, Nat.le_refl i, hlo, fun k hk hkn => hhi k hk hkn⟩
  | succ fuel ih =>
    intro i j hfuel hij hjn hlo hhi
    by_cases hlt : i < j
    · have hm_lo : i ≤ (i + j) / 2 := by omega
      have hm_hi : (i + j) / 2 < j := by omega
      simp only [sortSearchGo, if_pos hlt]
      cases hfm : f ((i + j) / 2) with
      | true =>
        have hrec := ih i ((i + j) / 2) (by omega) hm_lo (by omega) hlo
          (fun k hk hkn => hmono ((i + j) / 2) k hk hkn hfm)
        simp only [hfm, if_true]
        exact ⟨hrec.1, by omega, hrec.2.2⟩
      | false =>
        have hlo' : ∀ k, k < (i + j) / 2 + 1 → f k = false := by
          intro k hk
          by_cases hki : k < i
          · exact hlo k hki
          · cases hfk : f k with
            | true =>
              have : f ((i + j) / 2) = true :=
                hmono k ((i + j) / 2) (by omega) (by omega) hfk
              rw [this] at hfm
              exact absurd hfm (by simp)
            | false => rfl
        have hrec := ih ((i + j) / 2 + 1) j (by omega) (by omega) hjn hlo' hhi
        simp only [hfm, Bool.false_eq_true, if_false]
        exact ⟨by omega, hrec.2.1, hrec.2.2⟩
    · have hji : i = j := by omega
      subst hji
      simp only [sortSearchGo, if_neg hlt]
      exact ⟨Nat.le_refl i, Nat.le_refl i, hlo, fun k hk hkn => hhi k hk hkn⟩

/-- `searchInts a x` on a sorted list is the least index whose entry is
`>= x`: everything to its left is `< x`, everything from it to the end is
`>= x`, and it never exceeds the length. -/
theorem searchInts_spec (a : List Int) (x : Int)
    (hsorted : ∀ k l, k ≤ l → l < a.length → a.getD k 0 ≤ a.getD l 0) :
    (∀ k, k < searchInts a x → a.getD k 0 < x) ∧
    (∀ k, searchInts a x ≤ k → k < a.length → x ≤ a.getD k 0) ∧
    searchInts a x ≤ a.length := by
  have hmono : ∀ k l, k ≤ l → l < a.length →
      (decide (x ≤ a.getD k 0)) = true → (decide (x ≤ a.getD l 0)) = true := by
    intro k l hkl hl hk
    have hk' : x ≤ a.getD k 0 := of_decide_eq_true hk
    exact decide_eq_true (le_trans hk' (hsorted k l hkl hl))
  have hspec := sortSearchGo_spec (fun i => decide (x ≤ a.getD i 0)) a.length
    hmono a.length 0 a.length (by omega) (by omega) (by omega)
    (by intro k hk; omega)
    (by intro k hk hkn; omega)
  refine ⟨?_, ?_, hspec.2.1⟩
  · intro k hk
    have := hspec.2.2.1 k hk
    have : ¬ (x ≤ a.getD k 0) := of_decide_eq_false this
    omega
  · intro k hk hkn
    exact of_decide_eq_true (hspec.2.2.2 k hk hkn)

/-! ### Prefix sums of weights and the `NewScripts` lookup table -/

/-- Total weight of a list of scripts (as a natural number; weights are
Go `uint`s). -/
def sumW : List Script → Nat
  | [] => 0
  | s :: rest => s.Weight + sumW rest

/-- Cumulative weight of the first `i` scripts. -/
def preW (scripts : List Script) (i : Nat) : Nat := sumW (scripts.take i)

theorem preW_zero (l : List Script) : preW l 0 = 0 := rfl

theorem preW_succ (l : List Script) (i : Nat) (hi : i < l.length) :
    preW l (i + 1) = preW l i + (l.getD i defaultScript).Weight := by
  induction l generalizing i with
  | nil => simp at hi
  | cons a rest ih =>
    cases i with
    | zero => simp [preW, sumW]
    | succ i =>
      have hi' : i < rest.length := by simpa using hi
      have := ih i hi'
      simp only [preW, List.take_succ_cons, sumW, List.getD_cons_succ] at this ⊢
      omega

theorem preW_stable (l : List Script) (i : Nat) (hi : l.length ≤ i) :
    preW l i = sumW l := by
  induction l generalizing i with
  | nil => cases i <;> simp [preW, sumW]
  | cons a rest ih =>
    cases i with
    | zero => simp at hi
    | succ i =>
      have hi' : rest.length ≤ i := by simpa using hi
      simp only [preW, List.take_succ_cons, sumW] at ih ⊢
      rw [ih i hi']

theorem preW_le_succ (l : List Script) (i : Nat) : preW l i ≤ preW l (i + 1) := by
  by_cases hi : i < l.length
  · rw [preW_succ l i hi]; omega
  · rw [preW_stable l i (by omega), preW_stable l (i + 1) (by omega)]

theorem preW_mono (l : List Script) {i j : Nat} (hij : i ≤ j) :
    preW l i ≤ preW l j := by
  induction j with
  | zero =>
    have h0 : i = 0 := by omega
    subst h0
    exact Nat.le_refl _
  | succ j ih =>
    by_cases hj : i = j + 1
    · subst hj
      exact Nat.le_refl _
    · exact le_trans (ih (by omega)) (preW_le_succ l j)

theorem preW_length (l : List Script) : preW l l.length = sumW l :=
  preW_stable l l.length (Nat.le_refl _)

theorem buildLookup_total (l : List Script) :
    ∀ cum : Int, (buildLookup l cum).2 = cum + (sumW l : Int) := by
  induction l with
  | nil => intro cum; simp [buildLookup, sumW]
  | cons a rest ih =>
    intro cum
    simp only [buildLookup, sumW, ih (cum + (a.Weight : Int))]
    push_cast
    ring

theorem buildLookup_length (l : List Script) :
    ∀ cum : Int, (buildLookup l cum).1.length = l.length := by
  induction l with
  | nil => intro cum; simp [buildLookup]
  | cons a rest ih => intro cum; simp [buildLookup, ih]

theorem buildLookup_getD (l : List Script) :
    ∀ (cum : Int) (i : Nat), i < l.length →
      (buildLookup l cum).1.getD i 0 = cum + (preW l (i + 1) : Int) := by
  induction l with
  | nil => intro cum i hi; simp at hi
  | cons a rest ih =>
    intro cum i hi
    cases i with
    | zero => simp [buildLookup, preW, sumW]
    | succ i =>
      have hi' : i < rest.length := by simpa using hi
      have := ih (cum + (a.Weight : Int)) i hi'
      simp only [buildLookup, List.getD_cons_succ, this]
      have hpre : preW (a :: rest) (i + 2) = a.Weight + preW rest (i + 1) := by
        simp [preW, List.take_succ_cons, sumW]
      rw [hpre]
      push_cast
      ring

theorem NewScripts_scripts (l : List Script) : (NewScripts l).Scripts = l := rfl

theorem NewScripts_total (l : List Script) :
    (NewScripts l).TotalWeight = (sumW l : Int) := by
  have := buildLookup_total l 0
  simp only [NewScripts]
  omega

theorem NewScripts_lookup_length (l : List Script) :
    (NewScripts l).WeightedLookup.length = l.length :=
  buildLookup_length l 0

theorem NewScripts_lookup_getD (l : List Script) (i : Nat) (hi : i < l.length) :
    (NewScripts l).WeightedLookup.getD i 0 = (preW l (i + 1) : Int) := by
  have := buildLookup_getD l 0 i hi
  simp only [NewScripts]
  omega

theorem NewScripts_lookup_sorted (l : List Script) :
    ∀ k m : Nat, k ≤ m → m < (NewScripts l).WeightedLookup.length →
      (NewScripts l).WeightedLookup.getD k 0 ≤ (NewScripts l).WeightedLookup.getD m 0 := by
  intro k m hkm hm
  rw [NewScripts_lookup_length] at hm
  rw [NewScripts_lookup_getD l k (by omega), NewScripts_lookup_getD l m hm]
  have := preW_mono l (show k + 1 ≤ m + 1 by omega)
  omega

/-! ### Characterisation of `chooseIndex` on a `NewScripts` selector -/

/-- On a `NewScripts` table, `chooseIndex` never exceeds the script count,
every index left of it has cumulative weight `< point`, and every index
from it on has cumulative weight `>= point`. -/
theorem chooseIndex_NewScripts_spec (l : List Script) (point : Int) :
    (∀ k, k < chooseIndex (NewScripts l) point → (preW l (k + 1) : Int) < point) ∧
    (∀ k, chooseIndex (NewScripts l) point ≤ k → k < l.length →
      point ≤ (preW l (k + 1) : Int)) ∧
    chooseIndex (NewScripts l) point ≤ l.length := by
  have hspec := searchInts_spec (NewScripts l).WeightedLookup point
    (NewScripts_lookup_sorted l)
  rw [NewScripts_lookup_length] at hspec
  simp only [chooseIndex]
  refine ⟨?_, ?_, hspec.2.2⟩
  · intro k hk
    have hkl : k < l.length := by
      have := hspec.2.2
      omega
    have := hspec.1 k hk
    rwa [NewScripts_lookup_getD l k hkl] at this
  · intro k hk hkl
    have := hspec.2.1 k hk hkl
    rwa [NewScripts_lookup_getD l k hkl] at this

/-- Any point at most the total weight maps to an in-bounds index. -/
theorem chooseIndex_lt_length (l : List Script) (point : Int)
    (hlen : 0 < l.length) (hpoint : point ≤ (NewScripts l).TotalWeight) :
    chooseIndex (NewScripts l) point < l.length := by
  have hspec := chooseIndex_NewScripts_spec l point
  by_contra hge
  have hEq : chooseIndex (NewScripts l) point = l.length := by omega
  have hlast := hspec.1 (l.length - 1) (by omega)
  have hsum : l.length - 1 + 1 = l.length := by omega
  rw [hsum, preW_length] at hlast
  rw [NewScripts_total] at hpoint
  omega

/-- For a point in `[1, T]`, the chosen index is `i` exactly when the point
falls in the `i`-th cumulative-weight segment `(preW i, preW (i+1)]`. -/
theorem chooseIndex_eq_iff (l : List Script) (point : Int) (i : Nat)
    (hi : i < l.length) (h1 : 1 ≤ point)
    (hT : point ≤ (NewScripts l).TotalWeight) :
    chooseIndex (NewScripts l) point = i ↔
      ((preW l i : Int) < point ∧ point ≤ (preW l (i + 1) : Int)) := by
  have hspec := chooseIndex_NewScripts_spec l point
  constructor
  · intro heq
    refine ⟨?_, ?_⟩
    · cases i with
      | zero =>
        rw [preW_zero]
        omega
      | succ k =>
        have := hspec.1 k (by omega)
        exact this
    · exact hspec.2.1 i (by omega) hi
  · rintro ⟨hlo, hhi⟩
    rcases Nat.lt_trichotomy (chooseIndex (NewScripts l) point) i with hlt | heq | hgt
    · exfalso
      have hrl : chooseIndex (NewScripts l) point < l.length := by omega
      have hp := hspec.2.1 (chooseIndex (NewScripts l) point) (Nat.le_refl _) hrl
      have hmono := preW_mono l (show chooseIndex (NewScripts l) point + 1 ≤ i by omega)
      omega
    · exact heq
    · exfalso
      have := hspec.1 i hgt
      omega

/-- Counting: of the `T` possible points in `[1, T]`, exactly `weight i`
select script `i`. -/
theorem chooseIndex_count (l : List Script) (i : Nat) (hi : i < l.length) :
    (((Finset.Icc (1 : Int) (NewScripts l).TotalWeight)).filter
        (fun p => chooseIndex (NewScripts l) p = i)).card
      = (l.getD i defaultScript).Weight := by
  have hseg : ((Finset.Icc (1 : Int) (NewScripts l).TotalWeight)).filter
        (fun p => chooseIndex (NewScripts l) p = i)
      = Finset.Ioc ((preW l i : Nat) : Int) ((preW l (i + 1) : Nat) : Int) := by
    ext p
    simp only [Finset.mem_filter, Finset.mem_Icc, Finset.mem_Ioc]
    constructor
    · rintro ⟨⟨h1, h2⟩, heq⟩
      exact (chooseIndex_eq_iff l p i hi h1 h2).mp heq
    · rintro ⟨hlo, hhi⟩
      have hnn : (0 : Int) ≤ ((preW l i : Nat) : Int) := Int.natCast_nonneg _
      have h1 : 1 ≤ p := by omega
      have hmono := preW_mono l (show i + 1 ≤ l.length by omega)
      have h2 : p ≤ (NewScripts l).TotalWeight := by
        rw [NewScripts_total]
        rw [← preW_length l]
        omega
      exact ⟨⟨h1, h2⟩, (chooseIndex_eq_iff l p i hi h1 h2).mpr ⟨hlo, hhi⟩⟩
  rw [hseg, Int.card_Ioc, preW_succ l i hi]
  omega

/-! ### Unfolding `Scripts.Choose` -/

/-- The point drawn by `Choose` step 1: `r.Intn(s.TotalWeight) + 1`. -/
def pointDrawn (s : Scripts) (r : GoRand) : Int :=
  ((r.intn s.TotalWeight.toNat).1 : Int) + 1

theorem pointDrawn_bounds (s : Scripts) (r : GoRand) (hT : 0 < s.TotalWeight) :
    1 ≤ pointDrawn s r ∧ pointDrawn s r ≤ s.TotalWeight := by
  simp only [pointDrawn, GoRand.intn]
  have hpos : 0 < s.TotalWeight.toNat := by omega
  have hlt : r.seq r.pos % s.TotalWeight.toNat < s.TotalWeight.toNat :=
    Nat.mod_lt _ hpos
  omega

theorem Scripts.Choose_single (s : ScriptsT) (r : GoRand)
    (h : s.Scripts.length = 1) :
    s.Choose r = some (s.Scripts.getD 0 defaultScript, r) := by
  simp [Scripts.Choose, h]

theorem Scripts.Choose_multi (s : ScriptsT) (r : GoRand)
    (hlen : s.Scripts.length ≠ 1) (hT : 0 < s.TotalWeight)
    (hidx : chooseIndex s (pointDrawn s r) < s.Scripts.length) :
    s.Choose r = some (s.Scripts.getD (chooseIndex s (pointDrawn s r))
      defaultScript, ⟨r.seq, r.pos + 1⟩) := by
  simp only [Scripts.Choose, pointDrawn, GoRand.intn] at hidx ⊢
  rw [if_neg hlen, if_neg (by omega), if_pos hidx]

/-! ### Heap lemmas -/

theorem list_getD_set_ne {α : Type} (l : List α) (i j : Nat) (v d : α)
    (hne : j ≠ i) : (l.set i v).getD j d = l.getD j d := by
  induction l generalizing i j with
  | nil => simp
  | cons a t ih =>
    cases i with
    | zero =>
      cases j with
      | zero => omega
      | succ j => simp [List.set]
    | succ i =>
      cases j with
      | zero => simp [List.set]
      | succ j => simpa [List.set] using ih i j (by omega)

theorem list_getD_set_self {α : Type} (l : List α) (i : Nat) (v d : α)
    (hi : i < l.length) : (l.set i v).getD i d = v := by
  induction l generalizing i with
  | nil => simp at hi
  | cons a t ih =>
    cases i with
    | zero => simp [List.set]
    | succ i => simpa [List.set] using ih i (by simpa using hi)

theorem list_getD_append_ne {α : Type} (l : List α) (m : α) (r : Nat) (d : α)
    (hr : r ≠ l.length) : (l ++ [m]).getD r d = l.getD r d := by
  induction l generalizing r with
  | nil =>
    cases r with
    | zero => simp at hr
    | succ r => simp
  | cons a t ih =>
    cases r with
    | zero => simp
    | succ r => simpa using ih r (by simpa using hr)

theorem list_getD_append_last {α : Type} (l : List α) (m : α) (d : α) :
    (l ++ [m]).getD l.length d = m := by
  induction l with
  | nil => simp
  | cons a t ih => simpa using ih

theorem Heap.length_setRef (h : Heap) (r : MapRef) (m : VarMap) :
    (h.setRef r m).maps.length = h.maps.length := by
  simp [Heap.setRef]

theorem Heap.get_setRef_self (h : Heap) (r : MapRef) (m : VarMap)
    (hr : r < h.maps.length) : (h.setRef r m).get r = m :=
  list_getD_set_self h.maps r m [] hr

theorem Heap.get_setRef_ne (h : Heap) (r r' : MapRef) (m : VarMap)
    (hne : r' ≠ r) : (h.setRef r m).get r' = h.get r' :=
  list_getD_set_ne h.maps r r' m [] hne

theorem Heap.alloc_ref (h : Heap) (m : VarMap) : (h.alloc m).2 = h.maps.length :=
  rfl

theorem Heap.length_alloc (h : Heap) (m : VarMap) :
    (h.alloc m).1.maps.length = h.maps.length + 1 := by
  simp [Heap.alloc]

theorem Heap.get_alloc_ne (h : Heap) (m : VarMap) (r : MapRef)
    (hr : r ≠ h.maps.length) : (h.alloc m).1.get r = h.get r :=
  list_getD_append_ne h.maps m r [] hr

theorem Heap.get_alloc_new (h : Heap) (m : VarMap) :
    (h.alloc m).1.get h.maps.length = m :=
  list_getD_append_last h.maps m []

/-! ### Execution-model lemmas -/

/-- Whether a value is Go dynamic type `int64` (the `sleepNumber.(int64)`
type assertion). -/
def GoValue.isInt : GoValue → Bool
  | .int _ => true
  | _ => false

/-- The `SleepCommand` type-mismatch message for a value. -/
def sleepTypeError (v : GoValue) : String :=
  "\\sleep must be given an integer expression, got " ++ formatV v

theorem Execute_query (q : String) (ctx : ScriptContext) (h : Heap)
    (uow : UnitOfWork) :
    (Command.query q).Execute ctx h uow =
      (h, { uow with Statements :=
        uow.Statements ++ [{ Query := q, Params := h.get ctx.Vars }] }, none) :=
  rfl

theorem Execute_set_error (n : String) (expression : Expression)
    (ctx : ScriptContext) (h : Heap) (uow : UnitOfWork) (e : String)
    (he : expression (h.get ctx.Vars) = .error e) :
    (Command.set n expression).Execute ctx h uow = (h, uow, some e) := by
  simp [Command.Execute, he]

theorem Execute_set_ok (n : String) (expression : Expression)
    (ctx : ScriptContext) (h : Heap) (uow : UnitOfWork) (v : GoValue)
    (hv : expression (h.get ctx.Vars) = .ok v) :
    (Command.set n expression).Execute ctx h uow =
      (h.setRef ctx.Vars (mapSet (h.get ctx.Vars) n v), uow, none) := by
  simp [Command.Execute, hv]

theorem Execute_sleep_error (d : Expression) (u : Int) (ctx : ScriptContext)
    (h : Heap) (uow : UnitOfWork) (e : String)
    (he : d (h.get ctx.Vars) = .error e) :
    (Command.sleep d u).Execute ctx h uow = (h, uow, some e) := by
  simp [Command.Execute, he]

theorem Execute_sleep_int (d : Expression) (u : Int) (ctx : ScriptContext)
    (h : Heap) (uow : UnitOfWork) (k : Int)
    (hv : d (h.get ctx.Vars) = .ok (.int k)) :
    (Command.sleep d u).Execute ctx h uow = (h, uow, none) := by
  simp [Command.Execute, hv]

theorem Execute_sleep_mismatch (d : Expression) (u : Int) (ctx : ScriptContext)
    (h : Heap) (uow : UnitOfWork) (v : GoValue)
    (hv : d (h.get ctx.Vars) = .ok v) (hni : v.isInt = false) :
    (Command.sleep d u).Execute ctx h uow = (h, uow, some (sleepTypeError v)) := by
  cases v with
  | int k => simp [GoValue.isInt] at hni
  | str s => simp [Command.Execute, hv, sleepTypeError]
  | bool b => simp [Command.Execute, hv, sleepTypeError]

/-- A failing command leaves the heap and the unit of work untouched. -/
theorem Execute_err_frame (c : Command) (ctx : ScriptContext) (h : Heap)
    (uow : UnitOfWork) (h' : Heap) (u' : UnitOfWork) (e : String)
    (hexec : c.Execute ctx h uow = (h', u', some e)) : h' = h ∧ u' = uow := by
  cases c with
  | query q => simp [Command.Execute] at hexec
  | set n expression =>
    cases hres : expression (h.get ctx.Vars) with
    | error e' =>
      rw [Execute_set_error n expression ctx h uow e' hres] at hexec
      exact ⟨(congrArg Prod.fst hexec).symm,
        (congrArg (fun p => p.2.1) hexec).symm⟩
    | ok v =>
      rw [Execute_set_ok n expression ctx h uow v hres] at hexec
      simp at hexec
  | sleep d u =>
    cases hres : d (h.get ctx.Vars) with
    | error e' =>
      rw [Execute_sleep_error d u ctx h uow e' hres] at hexec
      exact ⟨(congrArg Prod.fst hexec).symm,
        (congrArg (fun p => p.2.1) hexec).symm⟩
    | ok v =>
      cases v with
      | int k =>
        rw [Execute_sleep_int d u ctx h uow k hres] at hexec
        simp at hexec
      | str s =>
        rw [Execute_sleep_mismatch d u ctx h uow (.str s) hres rfl] at hexec
        exact ⟨(congrArg Prod.fst hexec).symm,
          (congrArg (fun p => p.2.1) hexec).symm⟩
      | bool b =>
        rw [Execute_sleep_mismatch d u ctx h uow (.bool b) hres rfl] at hexec
        exact ⟨(congrArg Prod.fst hexec).symm,
          (congrArg (fun p => p.2.1) hexec).symm⟩

/-- Executing a command only ever writes the context's own map object. -/
theorem Execute_get_ne (c : Command) (ctx : ScriptContext) (h : Heap)
    (uow : UnitOfWork) (r : MapRef) (hne : r ≠ ctx.Vars) :
    (c.Execute ctx h uow).1.get r = h.get r := by
  cases c with
  | query q => rfl
  | set n expression =>
    cases hres : expression (h.get ctx.Vars) with
    | error e => simp [Command.Execute, hres]
    | ok v => simp [Command.Execute, hres, Heap.get_setRef_ne _ _ _ _ hne]
  | sleep d u =>
    cases hres : d (h.get ctx.Vars) with
    | error e => simp [Command.Execute, hres]
    | ok v => cases v <;> simp [Command.Execute, hres]

/-- Executing a command never changes the number of live map objects. -/
theorem Execute_length (c : Command) (ctx : ScriptContext) (h : Heap)
    (uow : UnitOfWork) :
    (c.Execute ctx h uow).1.maps.length = h.maps.length := by
  cases c with
  | query q => rfl
  | set n expression =>
    cases hres : expression (h.get ctx.Vars) with
    | error e => simp [Command.Execute, hres]
    | ok v => simp [Command.Execute, hres, Heap.setRef]
  | sleep d u =>
    cases hres : d (h.get ctx.Vars) with
    | error e => simp [Command.Execute, hres]
    | ok v => cases v <;> simp [Command.Execute, hres]

/-- A command only appends to the statement list; what was recorded stays. -/
theorem Execute_statements_prefix (c : Command) (ctx : ScriptContext) (h : Heap)
    (uow : UnitOfWork) :
    ∃ t, (c.Execute ctx h uow).2.1.Statements = uow.Statements ++ t := by
  cases c with
  | query q => exact ⟨_, rfl⟩
  | set n expression =>
    cases hres : expression (h.get ctx.Vars) with
    | error e => exact ⟨[], by simp [Command.Execute, hres]⟩
    | ok v => exact ⟨[], by simp [Command.Execute, hres]⟩
  | sleep d u =>
    cases hres : d (h.get ctx.Vars) with
    | error e => exact ⟨[], by simp [Command.Execute, hres]⟩
    | ok v => cases v <;> exact ⟨[], by simp [Command.Execute, hres]⟩

/-- A command preserves the unit of work's readonly flag. -/
theorem Execute_readonly (c : Command) (ctx : ScriptContext) (h : Heap)
    (uow : UnitOfWork) : (c.Execute ctx h uow).2.1.Readonly = uow.Readonly := by
  cases c with
  | query q => rfl
  | set n expression =>
    cases hres : expression (h.get ctx.Vars) with
    | error e => simp [Command.Execute, hres]
    | ok v => simp [Command.Execute, hres]
  | sleep d u =>
    cases hres : d (h.get ctx.Vars) with
    | error e => simp [Command.Execute, hres]
    | ok v => cases v <;> simp [Command.Execute, hres]

/-- Running a command list only ever writes the context's own map object. -/
theorem execList_get_ne (cmds : List Command) : ∀ (ctx : ScriptContext)
    (h : Heap) (uow : UnitOfWork) (r : MapRef), r ≠ ctx.Vars →
    (execList cmds ctx h uow).1.get r = h.get r := by
  induction cmds with
  | nil => intro ctx h uow r hne; rfl
  | cons c rest ih =>
    intro ctx h uow r hne
    simp only [execList]
    cases herr : (c.Execute ctx h uow).2.2 with
    | some e => simpa using Execute_get_ne c ctx h uow r hne
    | none =>
      simp only []
      rw [ih ctx _ _ r hne, Execute_get_ne c ctx h uow r hne]

/-- Running a command list preserves the number of live map objects. -/
theorem execList_length (cmds : List Command) : ∀ (ctx : ScriptContext)
    (h : Heap) (uow : UnitOfWork),
    (execList cmds ctx h uow).1.maps.length = h.maps.length := by
  induction cmds with
  | nil => intro ctx h uow; rfl
  | cons c rest ih =>
    intro ctx h uow
    simp only [execList]
    cases herr : (c.Execute ctx h uow).2.2 with
    | some e => simpa using Execute_length c ctx h uow
    | none =>
      simp only []
      rw [ih ctx _ _, Execute_length c ctx h uow]

/-- Running a command list only appends statements; the already-recorded
prefix (and its parameters) is preserved verbatim. -/
theorem execList_statements_prefix (cmds : List Command) :
    ∀ (ctx : ScriptContext) (h : Heap) (uow : UnitOfWork),
    ∃ t, (execList cmds ctx h uow).2.1.Statements = uow.Statements ++ t := by
  induction cmds with
  | nil => intro ctx h uow; exact ⟨[], by simp [execList]⟩
  | cons c rest ih =>
    intro ctx h uow
    simp only [execList]
    cases herr : (c.Execute ctx h uow).2.2 with
    | some e => simpa using Execute_statements_prefix c ctx h uow
    | none =>
      simp only []
      obtain ⟨t₁, ht₁⟩ := Execute_statements_prefix c ctx h uow
      obtain ⟨t₂, ht₂⟩ := ih ctx (c.Execute ctx h uow).1 (c.Execute ctx h uow).2.1
      exact ⟨t₁ ++ t₂, by rw [ht₂, ht₁, List.append_assoc]⟩

/-- Running a command list preserves the readonly flag. -/
theorem execList_readonly (cmds : List Command) : ∀ (ctx : ScriptContext)
    (h : Heap) (uow : UnitOfWork),
    (execList cmds ctx h uow).2.1.Readonly = uow.Readonly := by
  induction cmds with
  | nil => intro ctx h uow; rfl
  | cons c rest ih =>
    intro ctx h uow
    simp only [execList]
    cases herr : (c.Execute ctx h uow).2.2 with
    | some e => simpa using Execute_readonly c ctx h uow
    | none =>
      simp only []
      rw [ih ctx _ _, Execute_readonly c ctx h uow]

/-- Decomposition of a run over an appended command list. -/
theorem execList_append (l₁ l₂ : List Command) : ∀ (ctx : ScriptContext)
    (h : Heap) (uow : UnitOfWork),
    execList (l₁ ++ l₂) ctx h uow =
      match execList l₁ ctx h uow with
      | (h', u', some e) => (h', u', some e)
      | (h', u', none) => execList l₂ ctx h' u' := by
  induction l₁ with
  | nil => intro ctx h uow; simp [execList]
  | cons c rest ih =>
    intro ctx h uow
    simp only [List.cons_append, execList]
    cases herr : (c.Execute ctx h uow).2.2 with
    | some e => simp
    | none =>
      simp only []
      exact ih ctx _ _

/-- A command's observable outcome depends on the heap only through the
contents of the context's map object: two executions over (possibly
different, valid) references with equal contents produce the same unit of
work, the same error, and equal final scope contents. -/
theorem Execute_congr (c : Command) (st₁ st₂ : Nat) (rd₁ rd₂ : GoRand)
    (r₁ r₂ : MapRef) (h₁ h₂ : Heap) (uow : UnitOfWork)
    (hget : h₁.get r₁ = h₂.get r₂)
    (hv₁ : r₁ < h₁.maps.length) (hv₂ : r₂ < h₂.maps.length) :
    (c.Execute ⟨st₁, r₁, rd₁⟩ h₁ uow).2 = (c.Execute ⟨st₂, r₂, rd₂⟩ h₂ uow).2 ∧
    (c.Execute ⟨st₁, r₁, rd₁⟩ h₁ uow).1.get r₁ =
      (c.Execute ⟨st₂, r₂, rd₂⟩ h₂ uow).1.get r₂ := by
  cases c with
  | query q =>
    refine ⟨?_, hget⟩
    simp [Command.Execute, hget]
  | set n expression =>
    simp only [Command.Execute]
    rw [hget]
    cases hres : expression (h₂.get r₂) with
    | error e => exact ⟨rfl, hget⟩
    | ok v =>
      refine ⟨rfl, ?_⟩
      rw [Heap.get_setRef_self h₁ r₁ _ hv₁, Heap.get_setRef_self h₂ r₂ _ hv₂]
  | sleep d u =>
    simp only [Command.Execute]
    rw [hget]
    cases hres : d (h₂.get r₂) with
    | error e => exact ⟨rfl, hget⟩
    | ok v => cases v <;> exact ⟨rfl, hget⟩

/-- `execList` congruence: the produced unit of work and error depend on
the heap only through the contents of the context's map object, and the
final scope contents agree as well. -/
theorem execList_congr (cmds : List Command) : ∀ (st₁ st₂ : Nat)
    (rd₁ rd₂ : GoRand) (r₁ r₂ : MapRef) (h₁ h₂ : Heap) (uow : UnitOfWork),
    h₁.get r₁ = h₂.get r₂ → r₁ < h₁.maps.length → r₂ < h₂.maps.length →
    (execList cmds ⟨st₁, r₁, rd₁⟩ h₁ uow).2 =
      (execList cmds ⟨st₂, r₂, rd₂⟩ h₂ uow).2 ∧
    (execList cmds ⟨st₁, r₁, rd₁⟩ h₁ uow).1.get r₁ =
      (execList cmds ⟨st₂, r₂, rd₂⟩ h₂ uow).1.get r₂ := by
  induction cmds with
  | nil =>
    intro st₁ st₂ rd₁ rd₂ r₁ r₂ h₁ h₂ uow hget hv₁ hv₂
    exact ⟨rfl, hget⟩
  | cons c rest ih =>
    intro st₁ st₂ rd₁ rd₂ r₁ r₂ h₁ h₂ uow hget hv₁ hv₂
    have hc := Execute_congr c st₁ st₂ rd₁ rd₂ r₁ r₂ h₁ h₂ uow hget hv₁ hv₂
    have h21 : (c.Execute ⟨st₂, r₂, rd₂⟩ h₂ uow).2.1
        = (c.Execute ⟨st₁, r₁, rd₁⟩ h₁ uow).2.1 := (congrArg Prod.fst hc.1).symm
    have h22 : (c.Execute ⟨st₂, r₂, rd₂⟩ h₂ uow).2.2
        = (c.Execute ⟨st₁, r₁, rd₁⟩ h₁ uow).2.2 := (congrArg Prod.snd hc.1).symm
    have hlen₁ := Execute_length c ⟨st₁, r₁, rd₁⟩ h₁ uow
    have hlen₂ := Execute_length c ⟨st₂, r₂, rd₂⟩ h₂ uow
    simp only [execList]
    cases herr : (c.Execute ⟨st₁, r₁, rd₁⟩ h₁ uow).2.2 with
    | some e =>
      rw [herr] at h22
      rw [h22, h21]
      exact ⟨rfl, hc.2⟩
    | none =>
      rw [herr] at h22
      rw [h22, h21]
      have hv₁' : r₁ < (c.Execute ⟨st₁, r₁, rd₁⟩ h₁ uow).1.maps.length := by
        rw [hlen₁]; exact hv₁
      have hv₂' : r₂ < (c.Execute ⟨st₂, r₂, rd₂⟩ h₂ uow).1.maps.length := by
        rw [hlen₂]; exact hv₂
      exact ih st₁ st₂ rd₁ rd₂ r₁ r₂ _ _ _ hc.2 hv₁' hv₂'

/-! ### Concrete fixtures for closed theorems and witnesses -/

/-- Fixture: weight-2 script (the `A@2` of the source's comment). -/
def scriptA : Script := { Readonly := false, Weight := 2, Commands := [] }

/-- Fixture: weight-3 script (`B@3`). -/
def scriptB : Script := { Readonly := true, Weight := 3, Commands := [] }

/-- Fixture: weight-3 script (`C@3`). -/
def scriptC : Script := { Readonly := false, Weight := 3, Commands := [] }

/-- Fixture: the `[2,3,3]` selector from the spec's boundary check. -/
def scripts233 : Scripts := NewScripts [scriptA, scriptB, scriptC]

/-! ### The claims -/

/-- Claim C2: the scripts with weights `[2,3,3]` produce the lookup table
`[2,5,8]` with total weight `8`; a drawn point of `2` selects script 0, `3`
selects script 1, `8` selects script 2, and `1` selects script 0 (a point on
a cumulative boundary belongs to the lower-indexed script).  The four
`Choose` calls draw `1`, `2`, `7`, `0` from the stream, giving points `2`,
`3`, `8`, `1`. -/
theorem claim_C2 :
    scripts233.WeightedLookup = [2, 5, 8] ∧
    scripts233.TotalWeight = 8 ∧
    chooseIndex scripts233 2 = 0 ∧
    chooseIndex scripts233 3 = 1 ∧
    chooseIndex scripts233 8 = 2 ∧
    chooseIndex scripts233 1 = 0 ∧
    scripts233.Choose ⟨fun _ => 1, 0⟩ = some (scriptA, ⟨fun _ => 1, 1⟩) ∧
    scripts233.Choose ⟨fun _ => 2, 0⟩ = some (scriptB, ⟨fun _ => 2, 1⟩) ∧
    scripts233.Choose ⟨fun _ => 7, 0⟩ = some (scriptC, ⟨fun _ => 7, 1⟩) ∧
    scripts233.Choose ⟨fun _ => 0, 0⟩ = some (scriptA, ⟨fun _ => 0, 1⟩) :=
  ⟨rfl, rfl, rfl, rfl, rfl, rfl, rfl, rfl, rfl, rfl⟩

/-- Claim C3: `Choose` on a single-script selector always returns that
script and returns the randomness source unchanged (no draw is consumed),
regardless of the script's weight. -/
theorem claim_C3 (s : ScriptsT) (r : GoRand) (h1 : s.Scripts.length = 1) :
    s.Choose r = some (s.Scripts.getD 0 defaultScript, r) :=
  Scripts.Choose_single s r h1

/-- Witness for C3 at a one-script selector of weight 3. -/
theorem claim_C3_witness :
    (NewScripts [scriptB]).Scripts.length = 1 ∧
    (NewScripts [scriptB]).Choose ⟨fun k => k, 5⟩ =
      some ((NewScripts [scriptB]).Scripts.getD 0 defaultScript,
        ⟨fun k => k, 5⟩) :=
  ⟨rfl, claim_C3 (NewScripts [scriptB]) ⟨fun k => k, 5⟩ rfl⟩

/-- Fixture workload for the C6 counterexample. -/
def workloadW : Workload :=
  { Variables := 0, Scripts := NewScripts [scriptA], Rand := ⟨fun k => k, 0⟩ }

/-- Counterexample to claim C6 as stated: `NewClient` hands the client the
workload's own `Variables` mapping (the identical reference), not a distinct
copy. -/
theorem claim_C6_counterexample :
    (workloadW.NewClient).1.Variables = workloadW.Variables := rfl

/-- Claim C6 (amended): the client returned by `NewClient` holds the
workload's baseline variable mapping *by reference* — the same mapping, so
with identical contents under every heap — rather than a distinct copy; the
defensive copy is made per call inside `Next` instead. -/
theorem claim_C6_amended (w : Workload) (h : Heap) :
    (w.NewClient).1.Variables = w.Variables ∧
    h.get (w.NewClient).1.Variables = h.get w.Variables :=
  ⟨rfl, rfl⟩

/-- Claim C7: a `Sleep` command propagates an expression-evaluation failure
verbatim, and rejects a successfully evaluated non-integer value with the
type-mismatch error naming that value; in both cases the heap (variable
scope) and the unit of work are left unchanged. -/
theorem claim_C7 (duration : Expression) (u : Int) (ctx : ScriptContext)
    (h : Heap) (uow : UnitOfWork) :
    (∀ e, duration (h.get ctx.Vars) = .error e →
      (Command.sleep duration u).Execute ctx h uow = (h, uow, some e)) ∧
    (∀ v, duration (h.get ctx.Vars) = .ok v → v.isInt = false →
      (Command.sleep duration u).Execute ctx h uow
        = (h, uow, some (sleepTypeError v))) :=
  ⟨fun e he => Execute_sleep_error duration u ctx h uow e he,
   fun v hv hni => Execute_sleep_mismatch duration u ctx h uow v hv hni⟩

/-- Witness for C7: a failing duration expression and a string-valued one. -/
theorem claim_C7_witness :
    (Command.sleep (fun _ => .error "boom") 1).Execute
        ⟨0, 0, ⟨fun _ => 0, 0⟩⟩ ⟨[[("x", .int 1)]]⟩ ⟨false, []⟩
      = (⟨[[("x", .int 1)]]⟩, ⟨false, []⟩, some "boom") ∧
    (Command.sleep (fun _ => .ok (.str "ten")) 1).Execute
        ⟨0, 0, ⟨fun _ => 0, 0⟩⟩ ⟨[[("x", .int 1)]]⟩ ⟨false, []⟩
      = (⟨[[("x", .int 1)]]⟩, ⟨false, []⟩,
          some (sleepTypeError (.str "ten"))) :=
  ⟨(claim_C7 (fun _ => .error "boom") 1 ⟨0, 0, ⟨fun _ => 0, 0⟩⟩
      ⟨[[("x", .int 1)]]⟩ ⟨false, []⟩).1 "boom" rfl,
   (claim_C7 (fun _ => .ok (.str "ten")) 1 ⟨0, 0, ⟨fun _ => 0, 0⟩⟩
      ⟨[[("x", .int 1)]]⟩ ⟨false, []⟩).2 (.str "ten") rfl rfl⟩

/-- Claim C8: a `Query` command appends exactly one statement whose
parameters are the snapshot of the scope's contents at execution time, never
fails, and never mutates the scope (the heap is returned unchanged);
moreover any commands executed afterwards — `Set` included — only append:
the recorded statement and its parameters survive verbatim. -/
theorem claim_C8 (q : String) (ctx : ScriptContext) (h : Heap)
    (uow : UnitOfWork) :
    (Command.query q).Execute ctx h uow =
      (h, { uow with Statements := uow.Statements ++
        [{ Query := q, Params := h.get ctx.Vars }] }, none) ∧
    (∀ cmds : List Command, ∃ t,
      (execList cmds ctx ((Command.query q).Execute ctx h uow).1
          ((Command.query q).Execute ctx h uow).2.1).2.1.Statements
        = uow.Statements ++ [{ Query := q, Params := h.get ctx.Vars }] ++ t) := by
  refine ⟨Execute_query q ctx h uow, ?_⟩
  intro cmds
  obtain ⟨t, ht⟩ := execList_statements_prefix cmds ctx
    ((Command.query q).Execute ctx h uow).1
    ((Command.query q).Execute ctx h uow).2.1
  refine ⟨t, ?_⟩
  rw [ht, Execute_query q ctx h uow]

/-- Claim C10: a `Set` command whose expression evaluation fails leaves the
evaluation state untouched — same heap (no binding gained or lost for any
variable), same unit of work — and reports the evaluator's error verbatim;
the variable is bound only on successful evaluation. -/
theorem claim_C10 (varName : String) (expression : Expression)
    (ctx : ScriptContext) (h : Heap) (uow : UnitOfWork) :
    (∀ e, expression (h.get ctx.Vars) = .error e →
      (Command.set varName expression).Execute ctx h uow = (h, uow, some e)) ∧
    (∀ v, expression (h.get ctx.Vars) = .ok v →
      (Command.set varName expression).Execute ctx h uow =
        (h.setRef ctx.Vars (mapSet (h.get ctx.Vars) varName v), uow, none)) :=
  ⟨fun e he => Execute_set_error varName expression ctx h uow e he,
   fun v hv => Execute_set_ok varName expression ctx h uow v hv⟩

/-- Witness for C10: a failing and a succeeding assignment. -/
theorem claim_C10_witness :
    (Command.set "y" (fun _ => .error "undefined variable z")).Execute
        ⟨0, 0, ⟨fun _ => 0, 0⟩⟩ ⟨[[("x", .int 1)]]⟩ ⟨false, []⟩
      = (⟨[[("x", .int 1)]]⟩, ⟨false, []⟩, some "undefined variable z") ∧
    (Command.set "y" (fun _ => .ok (.int 5))).Execute
        ⟨0, 0, ⟨fun _ => 0, 0⟩⟩ ⟨[[("x", .int 1)]]⟩ ⟨false, []⟩
      = (Heap.setRef ⟨[[("x", .int 1)]]⟩ 0
            (mapSet [("x", GoValue.int 1)] "y" (.int 5)), ⟨false, []⟩, none) :=
  ⟨(claim_C10 "y" (fun _ => .error "undefined variable z")
      ⟨0, 0, ⟨fun _ => 0, 0⟩⟩ ⟨[[("x", .int 1)]]⟩ ⟨false, []⟩).1
      "undefined variable z" rfl,
   (claim_C10 "y" (fun _ => .ok (.int 5))
      ⟨0, 0, ⟨fun _ => 0, 0⟩⟩ ⟨[[("x", .int 1)]]⟩ ⟨false, []⟩).2 (.int 5) rfl⟩

/-- Claim C4: `Script.Eval` runs the commands in order from a `UnitOfWork`
pre-seeded with the script's readonly flag and no statements; if a command
fails after a successful prefix, evaluation stops there and returns exactly
the state accumulated by the prefix together with that command's error; if
no command fails the fully accumulated unit of work is returned with no
error. -/
theorem claim_C4 (s : Script) (ctx : ScriptContext) (h : Heap) :
    (∀ (pre : List Command) (c : Command) (post : List Command)
        (h₁ : Heap) (u₁ : UnitOfWork) (h₂ : Heap) (u₂ : UnitOfWork) (e : String),
      s.Commands = pre ++ c :: post →
      execList pre ctx h { Readonly := s.Readonly, Statements := [] }
        = (h₁, u₁, none) →
      c.Execute ctx h₁ u₁ = (h₂, u₂, some e) →
      s.Eval ctx h = (h₁, u₁, some e)) ∧
    (∀ (h' : Heap) (u' : UnitOfWork),
      execList s.Commands ctx h { Readonly := s.Readonly, Statements := [] }
        = (h', u', none) →
      s.Eval ctx h = (h', u', none)) := by
  constructor
  · intro pre c post h₁ u₁ h₂ u₂ e hsplit hpre hfail
    have hframe := Execute_err_frame c ctx h₁ u₁ h₂ u₂ e hfail
    show execList s.Commands ctx h { Readonly := s.Readonly, Statements := [] }
      = (h₁, u₁, some e)
    rw [hsplit, execList_append pre (c :: post) ctx h _, hpre]
    simp only [execList, hfail]
    rw [hframe.1, hframe.2]
  · intro h' u' hrun
    exact hrun

/-- Witness for C4: a three-command script whose third command fails; the
returned unit of work holds exactly the two statements recorded before the
failure. -/
theorem claim_C4_witness :
    (⟨false, 1, [.query "a", .query "b",
        .set "x" (fun _ => .error "boom")]⟩ : Script).Eval
        ⟨0, 0, ⟨fun k => k, 0⟩⟩ ⟨[[("v", .int 7)]]⟩
      = (⟨[[("v", .int 7)]]⟩,
         ⟨false, [⟨"a", [("v", .int 7)]⟩, ⟨"b", [("v", .int 7)]⟩]⟩,
         some "boom") :=
  (claim_C4 ⟨false, 1, [.query "a", .query "b",
      .set "x" (fun _ => .error "boom")]⟩ ⟨0, 0, ⟨fun k => k, 0⟩⟩
      ⟨[[("v", .int 7)]]⟩).1
    [.query "a", .query "b"] (.set "x" (fun _ => .error "boom")) []
    ⟨[[("v", .int 7)]]⟩
    ⟨false, [⟨"a", [("v", .int 7)]⟩, ⟨"b", [("v", .int 7)]⟩]⟩
    ⟨[[("v", .int 7)]]⟩
    ⟨false, [⟨"a", [("v", .int 7)]⟩, ⟨"b", [("v", .int 7)]⟩]⟩
    "boom" rfl rfl rfl

/-- Claim C1: on a multi-script selector built by `NewScripts` from
non-negative weights with positive total `T`, every `Choose` call draws one
value, forms a point in `[1, T]`, and returns the script at the smallest
index whose cumulative lookup entry reaches the point; consequently, for
each script `i`, exactly `weight i` of the `T` possible point values select
script `i`. -/
theorem claim_C1 (scripts : List Script) (hlen : 1 < scripts.length)
    (hT : 0 < (NewScripts scripts).TotalWeight) :
    (∀ r : GoRand,
      (NewScripts scripts).Choose r =
        some ((NewScripts scripts).Scripts.getD
          (chooseIndex (NewScripts scripts)
            (pointDrawn (NewScripts scripts) r)) defaultScript,
          ⟨r.seq, r.pos + 1⟩) ∧
      1 ≤ pointDrawn (NewScripts scripts) r ∧
      pointDrawn (NewScripts scripts) r ≤ (NewScripts scripts).TotalWeight) ∧
    (∀ point : Int, 1 ≤ point → point ≤ (NewScripts scripts).TotalWeight →
      point ≤ (NewScripts scripts).WeightedLookup.getD
        (chooseIndex (NewScripts scripts) point) 0 ∧
      (∀ k, k < chooseIndex (NewScripts scripts) point →
        (NewScripts scripts).WeightedLookup.getD k 0 < point)) ∧
    (∀ i, i < scripts.length →
      ((Finset.Icc (1 : Int) (NewScripts scripts).TotalWeight).filter
          (fun p => chooseIndex (NewScripts scripts) p = i)).card
        = (scripts.getD i defaultScript).Weight) := by
  refine ⟨?_, ?_, fun i hi => chooseIndex_count scripts i hi⟩
  · intro r
    have hb := pointDrawn_bounds (NewScripts scripts) r hT
    have hidx := chooseIndex_lt_length scripts
      (pointDrawn (NewScripts scripts) r) (by omega) hb.2
    refine ⟨?_, hb.1, hb.2⟩
    exact Scripts.Choose_multi (NewScripts scripts) r (by
        rw [NewScripts_scripts]; omega) hT (by rw [NewScripts_scripts]; exact hidx)
  · intro point h1 hTp
    have hidx := chooseIndex_lt_length scripts point (by omega) hTp
    have hspec := chooseIndex_NewScripts_spec scripts point
    refine ⟨?_, ?_⟩
    · rw [NewScripts_lookup_getD scripts _ hidx]
      exact hspec.2.1 _ (Nat.le_refl _) hidx
    · intro k hk
      rw [NewScripts_lookup_getD scripts k (by omega)]
      exact hspec.1 k hk

/-- Witness for C1 at the `[2,3,3]` selector: one full `Choose` call (draw
`4`, so point `5`, selecting the middle script), the least-index property at
point `5`, and the counting property at index `1`. -/
theorem claim_C1_witness :
    ((NewScripts [scriptA, scriptB, scriptC]).Choose ⟨fun _ => 4, 0⟩ =
        some ((NewScripts [scriptA, scriptB, scriptC]).Scripts.getD
          (chooseIndex (NewScripts [scriptA, scriptB, scriptC])
            (pointDrawn (NewScripts [scriptA, scriptB, scriptC])
              ⟨fun _ => 4, 0⟩)) defaultScript, ⟨fun _ => 4, 0 + 1⟩) ∧
      1 ≤ pointDrawn (NewScripts [scriptA, scriptB, scriptC]) ⟨fun _ => 4, 0⟩ ∧
      pointDrawn (NewScripts [scriptA, scriptB, scriptC]) ⟨fun _ => 4, 0⟩ ≤
        (NewScripts [scriptA, scriptB, scriptC]).TotalWeight) ∧
    (5 : Int) ≤ (NewScripts [scriptA, scriptB, scriptC]).WeightedLookup.getD
        (chooseIndex (NewScripts [scriptA, scriptB, scriptC]) 5) 0 ∧
    ((Finset.Icc (1 : Int)
        (NewScripts [scriptA, scriptB, scriptC]).TotalWeight).filter
        (fun p => chooseIndex (NewScripts [scriptA, scriptB, scriptC]) p = 1)).card
      = ([scriptA, scriptB, scriptC].getD 1 defaultScript).Weight :=
  ⟨(claim_C1 [scriptA, scriptB, scriptC] (by decide) (by decide)).1
      ⟨fun _ => 4, 0⟩,
   ((claim_C1 [scriptA, scriptB, scriptC] (by decide) (by decide)).2.1 5
      (by decide) (by decide)).1,
   (claim_C1 [scriptA, scriptB, scriptC] (by decide) (by decide)).2.2 1
      (by decide)⟩

/-- Claim C9: on a multi-script `NewScripts` selector with positive total
weight, the binary-search index is always strictly below the script count
(the drawn point is at most `T` and the last lookup entry equals `T`), so
the final array access is in bounds and `Choose` always succeeds. -/
theorem claim_C9 (scripts : List Script) (hlen : 1 < scripts.length)
    (hT : 0 < (NewScripts scripts).TotalWeight) (r : GoRand) :
    chooseIndex (NewScripts scripts) (pointDrawn (NewScripts scripts) r)
      < scripts.length ∧
    ((NewScripts scripts).Choose r).isSome = true := by
  have hb := pointDrawn_bounds (NewScripts scripts) r hT
  have hidx := chooseIndex_lt_length scripts
    (pointDrawn (NewScripts scripts) r) (by omega) hb.2
  refine ⟨hidx, ?_⟩
  rw [Scripts.Choose_multi (NewScripts scripts) r
    (by rw [NewScripts_scripts]; omega) hT
    (by rw [NewScripts_scripts]; exact hidx)]
  rfl

/-- Witness for C9 at the `[2,3,3]` selector with draw `6` (point `7`). -/
theorem claim_C9_witness :
    chooseIndex (NewScripts [scriptA, scriptB, scriptC])
        (pointDrawn (NewScripts [scriptA, scriptB, scriptC]) ⟨fun _ => 6, 0⟩)
      < ([scriptA, scriptB, scriptC] : List Script).length ∧
    ((NewScripts [scriptA, scriptB, scriptC]).Choose
        ⟨fun _ => 6, 0⟩).isSome = true :=
  claim_C9 [scriptA, scriptB, scriptC] (by decide) (by decide) ⟨fun _ => 6, 0⟩

/-- `Next`'s returned unit of work and error depend on the heap only
through the contents of the client's baseline mapping: the per-call fresh
copy insulates the evaluation from everything else in the heap. -/
theorem Next_heap_congr (cl : ClientWorkload) (h₁ h₂ : Heap)
    (hget : h₁.get cl.Variables = h₂.get cl.Variables) :
    (cl.Next h₁).map (fun r2 => (r2.uow, r2.err)) =
      (cl.Next h₂).map (fun r2 => (r2.uow, r2.err)) := by
  simp only [ClientWorkload.Next]
  cases hch : cl.Scripts.Choose cl.Rand with
  | none => rfl
  | some sr =>
    have hg : ((h₁.alloc (h₁.get cl.Variables)).1).get
          (h₁.alloc (h₁.get cl.Variables)).2
        = ((h₂.alloc (h₂.get cl.Variables)).1).get
          (h₂.alloc (h₂.get cl.Variables)).2 := by
      rw [Heap.alloc_ref, Heap.alloc_ref, Heap.get_alloc_new,
        Heap.get_alloc_new, hget]
    have hv₁ : (h₁.alloc (h₁.get cl.Variables)).2
        < (h₁.alloc (h₁.get cl.Variables)).1.maps.length := by
      rw [Heap.alloc_ref, Heap.length_alloc]
      exact Nat.lt_succ_self _
    have hv₂ : (h₂.alloc (h₂.get cl.Variables)).2
        < (h₂.alloc (h₂.get cl.Variables)).1.maps.length := by
      rw [Heap.alloc_ref, Heap.length_alloc]
      exact Nat.lt_succ_self _
    have hcongr := execList_congr sr.1.Commands cl.Stderr cl.Stderr sr.2 sr.2
      (h₁.alloc (h₁.get cl.Variables)).2 (h₂.alloc (h₂.get cl.Variables)).2
      (h₁.alloc (h₁.get cl.Variables)).1 (h₂.alloc (h₂.get cl.Variables)).1
      ⟨sr.1.Readonly, []⟩ hg hv₁ hv₂
    exact congrArg some hcongr.1

/-- Claim C5: each `Next` call evaluates the chosen script against a fresh
shallow copy of the client's baseline variables: the call leaves the
baseline reference and its contents unchanged, and a subsequent `Next` call
yields the same unit of work and error whether it runs on the heap produced
by the first call or on the original heap — so `Set` bindings made during
one call are never visible to a later call. -/
theorem claim_C5 (c : ClientWorkload) (h : Heap)
    (hv : c.Variables < h.maps.length) :
    ∀ res, c.Next h = some res →
      res.client.Variables = c.Variables ∧
      res.heap.get c.Variables = h.get c.Variables ∧
      (res.client.Next res.heap).map (fun r2 => (r2.uow, r2.err)) =
        (res.client.Next h).map (fun r2 => (r2.uow, r2.err)) := by
  intro res hres
  simp only [ClientWorkload.Next] at hres
  cases hch : c.Scripts.Choose c.Rand with
  | none =>
    rw [hch] at hres
    simp at hres
  | some sr =>
    rw [hch] at hres
    simp only [Option.some.injEq] at hres
    subst hres
    have hnel : c.Variables ≠ (h.alloc (h.get c.Variables)).2 := by
      rw [Heap.alloc_ref]
      exact Nat.ne_of_lt hv
    have hbase : (sr.1.Eval ⟨c.Stderr, (h.alloc (h.get c.Variables)).2, sr.2⟩
        (h.alloc (h.get c.Variables)).1).1.get c.Variables
          = h.get c.Variables :=
      (execList_get_ne sr.1.Commands
        ⟨c.Stderr, (h.alloc (h.get c.Variables)).2, sr.2⟩
        (h.alloc (h.get c.Variables)).1 ⟨sr.1.Readonly, []⟩
        c.Variables hnel).trans
        (Heap.get_alloc_ne h (h.get c.Variables) c.Variables (Nat.ne_of_lt hv))
    exact ⟨rfl, hbase, Next_heap_congr _ _ _ hbase⟩

/-- Fixture: a script that sets `x` to 5 and then queries. -/
def scriptSet : Script :=
  { Readonly := false, Weight := 1
    Commands := [.set "x" (fun _ => .ok (.int 5)), .query "q"] }

/-- Fixture client for the C5 witness: baseline `x = 1` at reference 0. -/
def clientW : ClientWorkload :=
  { Readonly := false, Variables := 0, Scripts := NewScripts [scriptSet]
    Rand := ⟨fun _ => 0, 0⟩, Stderr := 0 }

/-- Fixture heap for the C5 witness. -/
def heapW : Heap := ⟨[[("x", .int 1)]]⟩

/-- The result of `clientW.Next heapW`: the query sees `x = 5`, but the
baseline cell still holds `x = 1`, only the fresh copy was mutated. -/
def resW : NextResult :=
  { uow := ⟨false, [⟨"q", [("x", .int 5)]⟩]⟩, err := none
    client := clientW, heap := ⟨[[("x", .int 1)], [("x", .int 5)]]⟩ }

/-- Witness for C5 on the fixture client. -/
theorem claim_C5_witness :
    clientW.Variables < heapW.maps.length ∧
    resW.client.Variables = clientW.Variables ∧
    resW.heap.get clientW.Variables = heapW.get clientW.Variables ∧
    (resW.client.Next resW.heap).map (fun r2 => (r2.uow, r2.err)) =
      (resW.client.Next heapW).map (fun r2 => (r2.uow, r2.err)) :=
  ⟨by decide,
   (claim_C5 clientW heapW (by decide) resW rfl).1,
   (claim_C5 clientW heapW (by decide) resW rfl).2.1,
   (claim_C5 clientW heapW (by decide) resW rfl).2.2⟩
